import Mathlib

set_option maxRecDepth 1000000

namespace LookupTableH

/-!
Verification of `LookupTable.h` (mwshaner/LookupTable).

The C++ class `LookupTable<T, TABLE_SIZE>` stores two `std::array<T, TABLE_SIZE>`
members `m_x` (independent samples) and `m_f` (dependent samples) and answers
`get(t)` by a branchless binary search followed by linear interpolation.

Shallow embedding choices:
* The numeric element type `T` is modelled by `ℚ` (exact arithmetic).
* The two arrays are modelled as lists; `get` is embedded as a function of the
  two lists so that the degenerate guard `m_f.size() != m_x.size()` of the code
  is representable.  The class itself, whose `std::array` members force both
  lengths to equal `TABLE_SIZE`, is modelled separately as a structure bundling
  the length facts (`LookupTable`).
* `size_t` values (`low`, `high`, `mid`, `cmp`, `mask`) are modelled as `Nat`,
  with the bitwise mask arithmetic performed at an explicit word width
  (`size_t` is 64 bits on LP64): `landW w`, `lorW w`, `xorW w` compute the
  unsigned `w`-bit `&`, `|`, `^` bit by bit, and the C++ cast chain
  `-static_cast<long>(cmp)` produces `0` or the all-ones word (`maskOf`).
* The `while` loop is embedded as a fuel-indexed recursion `searchLoop`; `get`
  supplies fuel `TABLE_SIZE`, which is proved sufficient (the loop measure
  `high - low` starts at `TABLE_SIZE` and strictly decreases).
-/

/-- Word width of `size_t` (LP64). -/
def wordW : Nat := 64

/-- The all-ones word of width `w`: the value of `~0` on `w` unsigned bits. -/
def allOnes (w : Nat) : Nat := 2 ^ w - 1

/-- Bitwise AND on the low `w` bits (the `&` of two `size_t` values, `w = 64`);
bit `i` of the result is the product of bits `i` of the operands. -/
def landW : Nat → Nat → Nat → Nat
  | 0, _, _ => 0
  | w + 1, m, n => 2 * landW w (m / 2) (n / 2) + (m % 2) * (n % 2)

/-- Bitwise OR on the low `w` bits (the `|` of two `size_t` values). -/
def lorW : Nat → Nat → Nat → Nat
  | 0, _, _ => 0
  | w + 1, m, n => 2 * lorW w (m / 2) (n / 2) + (m % 2 + n % 2 - (m % 2) * (n % 2))

/-- Bitwise XOR on the low `w` bits. -/
def xorW : Nat → Nat → Nat → Nat
  | 0, _, _ => 0
  | w + 1, m, n => 2 * xorW w (m / 2) (n / 2) + (m % 2 + n % 2) % 2

/-- Bitwise complement `~m` on `w` unsigned bits. -/
def notW (w m : Nat) : Nat := xorW w m (allOnes w)

/-- `size_t mask = -static_cast<long>(cmp);` — all ones if `cmp`, else zero
(line 63 of `LookupTable.h`). -/
def maskOf (w : Nat) (cmp : Bool) : Nat := if cmp then allOnes w else 0

/-- One masked bound update of the branchless search (lines 60–85):
`cmp = (t > m_x[mid])`, `mask = -(long)cmp`,
`low = (mid & mask) | (low & ~mask)`, `high = (mid & ~mask) | (high & mask)`.
Returns `(low', high')`. -/
def step (w low high mid : Nat) (cmp : Bool) : Nat × Nat :=
  let mask := maskOf w cmp
  (lorW w (landW w mid mask) (landW w low (notW w mask)),
   lorW w (landW w mid (notW w mask)) (landW w high mask))

/-- The branchless binary-search loop of `get` (lines 54–86), fuel-indexed:
`while (high - low > 1) { mid = low + ((high - low) >> 1); ... }`.
Each iteration computes `mid`, the comparison `t > m_x[mid]`, and the masked
bound update `step`.  Out-of-range reads are modelled by `List.getD _ _ 0`
(they are proved never to occur on the paths `get` takes). -/
def searchLoop (x : List ℚ) (t : ℚ) : Nat → Nat → Nat → Nat × Nat
  | 0, low, high => (low, high)
  | fuel + 1, low, high =>
    if high - low > 1 then
      let mid := low + (high - low) / 2
      let cmp := decide (x.getD mid 0 < t)
      let p := step wordW low high mid cmp
      searchLoop x t fuel p.1 p.2
    else (low, high)

/-- `size_t low = 0;` (line 49). -/
def initLow : Nat := 0

/-- `size_t high = TABLE_SIZE;` (line 50). -/
def initHigh (tableSize : Nat) : Nat := tableSize

/-- The linear-interpolation tail of `get` (lines 89–96), over any pair of
indices `low`, `high`:
`double denom = (m_x[high] - m_x[low]); if (denom == 0) return 0;`
then the interpolation formula of line 96. -/
def interp (m_x m_f : List ℚ) (t : ℚ) (low high : Nat) : ℚ :=
  let denom := m_x.getD high 0 - m_x.getD low 0
  if denom = 0 then 0
  else (m_f.getD high 0 - m_f.getD low 0) / denom * t +
    (m_x.getD high 0 * m_f.getD low 0 - m_x.getD low 0 * m_f.getD high 0) / denom

/-- The body of `T get(const T& t)` (lines 31–97), as a function of the stored
sequences `m_x`, `m_f` and the query `t`.  `TABLE_SIZE` equals `m_x.length`
(`m_x.size() == TABLE_SIZE` for a `std::array`).  Order of tests and all
arithmetic follow the source:
degenerate guard, clamp at `m_x.front()`/`m_x.back()`, branchless search from
`(initLow, initHigh TABLE_SIZE)`, then the interpolation tail `interp` (which
contains the degenerate-interval guard `denom == 0`). -/
def get (m_x m_f : List ℚ) (t : ℚ) : ℚ :=
  if m_x.length = 0 ∨ m_f.length ≠ m_x.length then 0
  else if t ≤ m_x.getD 0 0 then m_f.getD 0 0
  else if m_x.getD (m_x.length - 1) 0 ≤ t then m_f.getD (m_f.length - 1) 0
  else
    let p := searchLoop m_x t m_x.length initLow (initHigh m_x.length)
    interp m_x m_f t p.1 p.2

/-- The indices `mid` at which the loop of lines 54–86 reads `m_x`, in
execution order (the instrumentation mirrors `searchLoop` exactly). -/
def searchAccesses (x : List ℚ) (t : ℚ) : Nat → Nat → Nat → List Nat
  | 0, _, _ => []
  | fuel + 1, low, high =>
    if high - low > 1 then
      let mid := low + (high - low) / 2
      let cmp := decide (x.getD mid 0 < t)
      let p := step wordW low high mid cmp
      mid :: searchAccesses x t fuel p.1 p.2
    else []

/-- Every index at which `get` reads `m_x` or `m_f`, in execution order:
none on the degenerate guard, `front` on the first clamp, `front`/`back` on
the second, and for an interior query the loop reads plus the final
`low`/`high` reads of the interpolation tail. -/
def getAccesses (m_x m_f : List ℚ) (t : ℚ) : List Nat :=
  if m_x.length = 0 ∨ m_f.length ≠ m_x.length then []
  else if t ≤ m_x.getD 0 0 then [0]
  else if m_x.getD (m_x.length - 1) 0 ≤ t then [0, m_x.length - 1]
  else
    let p := searchLoop m_x t m_x.length initLow (initHigh m_x.length)
    0 :: (m_x.length - 1) ::
      (searchAccesses m_x t m_x.length initLow (initHigh m_x.length) ++ [p.1, p.2])

/-- The C++ class itself (lines 20–102): the constructor (lines 24–29) copies
two `std::array<T, TABLE_SIZE>` arguments into the members `m_x`, `m_f`
(lines 100–101), so both stored sequences have length exactly `TABLE_SIZE`. -/
structure LookupTable (TABLE_SIZE : Nat) where
  m_x : List ℚ
  m_f : List ℚ
  hx : m_x.length = TABLE_SIZE
  hf : m_f.length = TABLE_SIZE

/-- Alias for the top-level `get`, so that the member function below can refer
to it without capturing its own name. -/
def getOnLists : List ℚ → List ℚ → ℚ → ℚ := get

/-- `tbl.get t` of the class is `get` applied to the stored sequences. -/
def LookupTable.get {TABLE_SIZE : Nat} (tbl : LookupTable TABLE_SIZE) (t : ℚ) : ℚ :=
  getOnLists tbl.m_x tbl.m_f t

/-- Modelled from the spec: the point on the line through `(a, fa)` and
`(b, fb)` evaluated at `t` (§4.1: "return the point on the line through
`(x[low], f[low])` and `(x[high], f[high])` evaluated at `t`"). -/
def lineThrough (a fa b fb t : ℚ) : ℚ :=
  fa + (fb - fa) / (b - a) * (t - a)

/-- The branching binary search described by the spec's words:
`low = cmp ? mid : low`; `high = cmp ? high : mid`, same loop condition and
`mid` computation.  This is the reference against which the branchless loop is
compared (refinement claim). -/
def searchBranch (x : List ℚ) (t : ℚ) (low high : Nat) : Nat × Nat :=
  if high - low > 1 then
    let mid := low + (high - low) / 2
    if x.getD mid 0 < t then searchBranch x t mid high
    else searchBranch x t low mid
  else (low, high)
termination_by high - low
decreasing_by
  all_goals omega


/-! ### A word-register machine for the control-flow contract

To state that the loop body executes a fixed instruction sequence regardless
of the comparison outcome, the body is exhibited as a program for a small
register machine over `size_t` words.  The machine has a conditional jump
`jnzR` (so data-dependent control flow is expressible), yet the loop body
program contains none. -/

/-- Machine instructions.  `dst`, `a`, `b` name registers; `cmpGtR dst a`
performs the load-and-compare `t > m_x[r_a]` of line 60; `negR` is the
`size_t` negation producing the mask of line 63; `andR`/`orR`/`notR` are the
64-bit bitwise operations of lines 84–85; `jnzR a target` jumps to `target`
when register `a` is nonzero. -/
inductive Instr where
  | subR (dst a b : Nat)
  | shrR (dst a : Nat)
  | addR (dst a b : Nat)
  | cmpGtR (dst a : Nat)
  | negR (dst a : Nat)
  | andR (dst a b : Nat)
  | orR (dst a b : Nat)
  | notR (dst a : Nat)
  | jnzR (a : Nat) (target : Nat)
deriving DecidableEq

/-- Is the instruction the conditional jump? -/
def Instr.isJnz : Instr → Bool
  | .jnzR _ _ => true
  | _ => false

/-- Effect of a non-jump instruction on the register file (the table `x` and
query `t` are the data visible to the load-and-compare instruction). -/
def applyInstr (x : List ℚ) (t : ℚ) (i : Instr) (r : List Nat) : List Nat :=
  match i with
  | .subR d a b => r.set d (r.getD a 0 - r.getD b 0)
  | .shrR d a => r.set d (r.getD a 0 / 2)
  | .addR d a b => r.set d (r.getD a 0 + r.getD b 0)
  | .cmpGtR d a => r.set d (if x.getD (r.getD a 0) 0 < t then 1 else 0)
  | .negR d a => r.set d ((2 ^ wordW - r.getD a 0) % 2 ^ wordW)
  | .andR d a b => r.set d (landW wordW (r.getD a 0) (r.getD b 0))
  | .orR d a b => r.set d (lorW wordW (r.getD a 0) (r.getD b 0))
  | .notR d a => r.set d (notW wordW (r.getD a 0))
  | .jnzR _ _ => r

/-- Straight-line execution: apply the instructions of a (jump-free) program
in order. -/
def runStraight (x : List ℚ) (t : ℚ) : List Instr → List Nat → List Nat
  | [], r => r
  | i :: rest, r => runStraight x t rest (applyInstr x t i r)

/-- Full machine semantics with a program counter: returns the executed-pc
trace together with the final register file.  The trace is the observable
"which instructions executed" of the claim. -/
def execProg (x : List ℚ) (t : ℚ) (p : List Instr) :
    Nat → Nat → List Nat → List Nat × List Nat
  | 0, _, r => ([], r)
  | fuel + 1, pc, r =>
    match p[pc]? with
    | none => ([], r)
    | some (Instr.jnzR a target) =>
      let q := execProg x t p fuel (if r.getD a 0 ≠ 0 then target else pc + 1) r
      (pc :: q.1, q.2)
    | some i =>
      let q := execProg x t p fuel (pc + 1) (applyInstr x t i r)
      (pc :: q.1, q.2)

/-- The loop body (lines 57–85) as a fixed straight-line program.  Register
layout: `r0 = low`, `r1 = high`, `r2 = mid`, `r3 = cmp`, `r4 = mask`,
`r5 = ~mask`, `r6`/`r7` scratch; the order is exactly that of the source:
`mid = low + ((high - low) >> 1)`; `cmp = (t > m_x[mid])`;
`mask = -(long)cmp`; `low = (mid & mask) | (low & ~mask)`;
`high = (mid & ~mask) | (high & mask)`. -/
def bodyProg : List Instr :=
  [Instr.subR 2 1 0, Instr.shrR 2 2, Instr.addR 2 0 2,
   Instr.cmpGtR 3 2,
   Instr.negR 4 3,
   Instr.notR 5 4,
   Instr.andR 6 2 4, Instr.andR 7 0 5, Instr.orR 0 6 7,
   Instr.andR 6 2 5, Instr.andR 7 1 4, Instr.orR 1 6 7]

/-! ### Bitwise word lemmas -/

theorem mod_two_pow_succ (m k : Nat) :
    m % 2 ^ (k + 1) = 2 * (m / 2 % 2 ^ k) + m % 2 := by
  rw [pow_succ, mul_comm (2 ^ k) 2, Nat.mod_mul]
  omega

theorem allOnes_lt (w : Nat) : allOnes w < 2 ^ w := by
  have h : 1 ≤ 2 ^ w := Nat.one_le_two_pow
  simp only [allOnes]
  omega

theorem landW_zero_right (k : Nat) : ∀ m, landW k m 0 = 0 := by
  induction k with
  | zero => intro m; rfl
  | succ k ih => intro m; simp [landW, Nat.zero_div, ih]

theorem landW_allOnes (k : Nat) : ∀ m, landW k m (allOnes k) = m % 2 ^ k := by
  induction k with
  | zero => intro m; simp [landW, allOnes, Nat.mod_one]
  | succ k ih =>
    intro m
    have hp : 2 ^ (k + 1) = 2 ^ k * 2 := pow_succ 2 k
    have h1 : 1 ≤ 2 ^ k := Nat.one_le_two_pow
    have hdiv : allOnes (k + 1) / 2 = allOnes k := by simp only [allOnes]; omega
    have hmod : allOnes (k + 1) % 2 = 1 := by simp only [allOnes]; omega
    simp only [landW, hdiv, hmod, ih, mul_one]
    rw [mod_two_pow_succ]

theorem lorW_zero_right (k : Nat) : ∀ m, lorW k m 0 = m % 2 ^ k := by
  induction k with
  | zero => intro m; simp [lorW, Nat.mod_one]
  | succ k ih =>
    intro m
    simp only [lorW, Nat.zero_div, Nat.zero_mod, ih]
    rw [mod_two_pow_succ]
    omega

theorem lorW_zero_left (k : Nat) : ∀ m, lorW k 0 m = m % 2 ^ k := by
  induction k with
  | zero => intro m; simp [lorW, Nat.mod_one]
  | succ k ih =>
    intro m
    simp only [lorW, Nat.zero_div, Nat.zero_mod, ih]
    rw [mod_two_pow_succ]
    omega

theorem xorW_self (k : Nat) : ∀ m, xorW k m m = 0 := by
  induction k with
  | zero => intro m; rfl
  | succ k ih => intro m; simp [xorW, ih]; omega

theorem xorW_zero_left (k : Nat) : ∀ m, xorW k 0 m = m % 2 ^ k := by
  induction k with
  | zero => intro m; simp [xorW, Nat.mod_one]
  | succ k ih =>
    intro m
    simp only [xorW, Nat.zero_div, Nat.zero_mod, ih]
    rw [mod_two_pow_succ]
    omega

/-- The masked select of the source equals the branch the spec describes,
whenever the three `size_t` values fit in the word width (they always do). -/
theorem step_eq_branch (w low high mid : Nat) (cmp : Bool)
    (hlow : low < 2 ^ w) (hhigh : high < 2 ^ w) (hmid : mid < 2 ^ w) :
    step w low high mid cmp =
      (if cmp then mid else low, if cmp then high else mid) := by
  cases cmp with
  | false =>
    have hnot : notW w 0 = allOnes w := by
      rw [notW, xorW_zero_left, Nat.mod_eq_of_lt (allOnes_lt w)]
    have e1 : landW w mid 0 = 0 := landW_zero_right w mid
    have e2 : landW w high 0 = 0 := landW_zero_right w high
    have e3 : landW w low (allOnes w) = low := by
      rw [landW_allOnes, Nat.mod_eq_of_lt hlow]
    have e4 : landW w mid (allOnes w) = mid := by
      rw [landW_allOnes, Nat.mod_eq_of_lt hmid]
    have e5 : lorW w 0 low = low := by
      rw [lorW_zero_left, Nat.mod_eq_of_lt hlow]
    have e6 : lorW w mid 0 = mid := by
      rw [lorW_zero_right, Nat.mod_eq_of_lt hmid]
    have hm : maskOf w false = 0 := rfl
    simp only [step, hm, hnot, e1, e2, e3, e4, e5, e6]
    simp
  | true =>
    have hnot : notW w (allOnes w) = 0 := by rw [notW, xorW_self]
    have e1 : landW w low 0 = 0 := landW_zero_right w low
    have e2 : landW w mid 0 = 0 := landW_zero_right w mid
    have e3 : landW w mid (allOnes w) = mid := by
      rw [landW_allOnes, Nat.mod_eq_of_lt hmid]
    have e4 : landW w high (allOnes w) = high := by
      rw [landW_allOnes, Nat.mod_eq_of_lt hhigh]
    have e5 : lorW w mid 0 = mid := by
      rw [lorW_zero_right, Nat.mod_eq_of_lt hmid]
    have e6 : lorW w 0 high = high := by
      rw [lorW_zero_left, Nat.mod_eq_of_lt hhigh]
    have hm : maskOf w true = allOnes w := rfl
    simp only [step, hm, hnot, e1, e2, e3, e4, e5, e6]
    simp

/-- With enough fuel and in-word bounds, the fuelled branchless loop computes
exactly what the branching binary search computes. -/
theorem searchLoop_eq_searchBranch (x : List ℚ) (t : ℚ) :
    ∀ fuel low high, low < 2 ^ wordW → high < 2 ^ wordW → high - low ≤ fuel →
      searchLoop x t fuel low high = searchBranch x t low high := by
  intro fuel
  induction fuel with
  | zero =>
    intro low high _ _ hf
    rw [searchBranch, searchLoop]
    rw [if_neg (by omega)]
  | succ fuel ih =>
    intro low high hlow hhigh hf
    rw [searchBranch, searchLoop]
    by_cases hc : high - low > 1
    · rw [if_pos hc, if_pos hc]
      have hmid : low + (high - low) / 2 < 2 ^ wordW := by omega
      simp only [step_eq_branch wordW low high (low + (high - low) / 2) _
        hlow hhigh hmid]
      by_cases hcmp : x.getD (low + (high - low) / 2) 0 < t
      · simp only [hcmp, decide_eq_true_eq, if_true, ite_true]
        exact ih _ _ hmid hhigh (by omega)
      · simp only [hcmp, decide_eq_true_eq, if_false, ite_false]
        exact ih _ _ hlow hmid (by omega)
    · rw [if_neg hc, if_neg hc]

-- sanity checks: the search itself kernel-evaluates
example : searchLoop [0, 10, 20, 30] 5 4 0 4 = (0, 1) := by decide
example : searchLoop [0, 10, 20, 30] 15 4 0 4 = (1, 2) := by decide

/-! ### The search invariant -/

/-- Main loop invariant.  For any table (sorted or not), as long as the query
is strictly inside `(m_x[0], m_x[N-1])`, the loop exits with adjacent indices
`high = low + 1`, `high ≤ N - 1`, and the bracketing `m_x[low] < t ≤ m_x[high]`
— the comparisons performed by the loop themselves guarantee the bracket. -/
theorem searchLoop_invariant (x : List ℚ) (t : ℚ)
    (hW : x.length < 2 ^ wordW) (hlast : t < x.getD (x.length - 1) 0) :
    ∀ fuel low high, low < high → high ≤ x.length → high - low ≤ fuel →
      x.getD low 0 < t → (high = x.length ∨ t ≤ x.getD high 0) →
      (searchLoop x t fuel low high).2 = (searchLoop x t fuel low high).1 + 1 ∧
      (searchLoop x t fuel low high).2 ≤ x.length - 1 ∧
      x.getD (searchLoop x t fuel low high).1 0 < t ∧
      t ≤ x.getD (searchLoop x t fuel low high).2 0 := by
  intro fuel
  induction fuel with
  | zero =>
    intro low high hlh _ hfuel _ _
    exfalso
    omega
  | succ fuel ih =>
    intro low high hlh hhN hfuel hlow hhigh
    rw [searchLoop]
    by_cases hc : high - low > 1
    · rw [if_pos hc]
      have hmidW : low + (high - low) / 2 < 2 ^ wordW := by omega
      simp only [step_eq_branch wordW low high (low + (high - low) / 2) _
        (by omega) (by omega) hmidW]
      by_cases hcmp : x.getD (low + (high - low) / 2) 0 < t
      · simp only [hcmp, decide_eq_true_eq, if_true, ite_true]
        exact ih (low + (high - low) / 2) high (by omega) hhN (by omega) hcmp hhigh
      · simp only [hcmp, decide_eq_true_eq, if_false, ite_false]
        exact ih low (low + (high - low) / 2) (by omega) (by omega) (by omega)
          hlow (Or.inr (le_of_not_lt hcmp))
    · rw [if_neg hc]
      have hble : high = low + 1 := by omega
      by_cases hN : high = x.length
      · exfalso
        have hlow' : x.getD (x.length - 1) 0 < t := by
          have : low = x.length - 1 := by omega
          rwa [this] at hlow
        exact absurd hlast (not_lt.mpr (le_of_lt hlow'))
      · have hh : high ≤ x.length - 1 := by omega
        have hhx : t ≤ x.getD high 0 := by
          rcases hhigh with h | h
          · exact absurd h hN
          · exact h
        exact ⟨hble, hh, hlow, hhx⟩

/-- Every `m_x[mid]` read of the loop is at an index below the table size. -/
theorem searchAccesses_lt (x : List ℚ) (t : ℚ) (hW : x.length < 2 ^ wordW) :
    ∀ fuel low high, low < 2 ^ wordW → high ≤ x.length →
      ∀ i ∈ searchAccesses x t fuel low high, i < x.length := by
  intro fuel
  induction fuel with
  | zero => intro low high _ _ i hi; simp [searchAccesses] at hi
  | succ fuel ih =>
    intro low high hlW hhN i hi
    rw [searchAccesses] at hi
    by_cases hc : high - low > 1
    · rw [if_pos hc] at hi
      have hmidW : low + (high - low) / 2 < 2 ^ wordW := by omega
      simp only [step_eq_branch wordW low high (low + (high - low) / 2) _
        hlW (by omega) hmidW] at hi
      rcases List.mem_cons.mp hi with h | h
      · omega
      · by_cases hcmp : x.getD (low + (high - low) / 2) 0 < t
        · simp only [hcmp, decide_eq_true_eq, if_true, ite_true] at h
          exact ih (low + (high - low) / 2) high hmidW hhN i h
        · simp only [hcmp, decide_eq_true_eq, if_false, ite_false] at h
          exact ih low (low + (high - low) / 2) hlW (by omega) i h
    · rw [if_neg hc] at hi
      simp at hi

/-! ### Unfolding helpers for `get` -/

/-- `get` on the degenerate guard. -/
theorem get_guard (x f : List ℚ) (t : ℚ)
    (h : x.length = 0 ∨ f.length ≠ x.length) : get x f t = 0 := by
  unfold get
  rw [if_pos h]

/-- `get` on the first clamp. -/
theorem get_clamp_front (x f : List ℚ) (t : ℚ) (hx : x.length ≠ 0)
    (hf : f.length = x.length) (h1 : t ≤ x.getD 0 0) :
    get x f t = f.getD 0 0 := by
  unfold get
  rw [if_neg (by simp [hx, hf]), if_pos h1]

/-- `get` on the second clamp. -/
theorem get_clamp_back (x f : List ℚ) (t : ℚ) (hx : x.length ≠ 0)
    (hf : f.length = x.length) (h1 : ¬ t ≤ x.getD 0 0)
    (h2 : x.getD (x.length - 1) 0 ≤ t) :
    get x f t = f.getD (f.length - 1) 0 := by
  unfold get
  rw [if_neg (by simp [hx, hf]), if_neg h1, if_pos h2]

/-- `get` on an interior query reduces to the interpolation tail at the
indices found by the branchless search. -/
theorem get_in_range (x f : List ℚ) (t : ℚ) (hx : x.length ≠ 0)
    (hf : f.length = x.length) (h1 : ¬ t ≤ x.getD 0 0)
    (h2 : ¬ x.getD (x.length - 1) 0 ≤ t) :
    get x f t =
      interp x f t (searchLoop x t x.length initLow (initHigh x.length)).1
        (searchLoop x t x.length initLow (initHigh x.length)).2 := by
  unfold get
  rw [if_neg (by simp [hx, hf]), if_neg h1, if_neg h2]

/-! ### Claims -/

/-- C1: For every table whose independent sequence `x` is sorted non-decreasing
with `N ≥ 2` (`N` is a `size_t`, hence below `2^64`), and every query `t` with
`x[0] < t < x[N-1]`, the binary-search loop in `get` terminates — fuel `N` (the
fuel `get` supplies) reaches the exit condition, and any extra fuel returns the
same pair — and at exit `high = low + 1` and `x[low] ≤ t ≤ x[high]`. -/
theorem C1_search_converges (x : List ℚ) (t : ℚ)
    (hW : x.length < 2 ^ wordW) (hsorted : List.Sorted (· ≤ ·) x)
    (hN : 2 ≤ x.length)
    (hlo : x.getD 0 0 < t) (hhi : t < x.getD (x.length - 1) 0) :
    (searchLoop x t x.length initLow (initHigh x.length)).2 =
      (searchLoop x t x.length initLow (initHigh x.length)).1 + 1 ∧
    x.getD (searchLoop x t x.length initLow (initHigh x.length)).1 0 ≤ t ∧
    t ≤ x.getD (searchLoop x t x.length initLow (initHigh x.length)).2 0 ∧
    ∀ extra, searchLoop x t (x.length + extra) initLow (initHigh x.length) =
      searchLoop x t x.length initLow (initHigh x.length) := by
  have h0 : initLow < initHigh x.length := by
    simp only [initLow, initHigh]
    omega
  have hinv := searchLoop_invariant x t hW hhi x.length initLow (initHigh x.length)
    h0 (le_refl x.length) (by simp only [initLow, initHigh]; omega)
    (by simpa only [initLow] using hlo) (Or.inl (by simp only [initHigh]))
  have hlW : initLow < 2 ^ wordW := by
    simp only [initLow]
    positivity
  have hhW : initHigh x.length < 2 ^ wordW := by
    simpa only [initHigh] using hW
  refine ⟨hinv.1, le_of_lt hinv.2.2.1, hinv.2.2.2, fun extra => ?_⟩
  rw [searchLoop_eq_searchBranch x t (x.length + extra) initLow
      (initHigh x.length) hlW hhW (by simp only [initLow, initHigh]; omega),
    searchLoop_eq_searchBranch x t x.length initLow
      (initHigh x.length) hlW hhW (by simp only [initLow, initHigh]; omega)]

theorem C1_search_converges_witness :
    ([(0:ℚ), 10, 20, 30].length < 2 ^ wordW) ∧
    List.Sorted (· ≤ ·) [(0:ℚ), 10, 20, 30] ∧
    2 ≤ [(0:ℚ), 10, 20, 30].length ∧
    [(0:ℚ), 10, 20, 30].getD 0 0 < 15 ∧
    ((15:ℚ) < [(0:ℚ), 10, 20, 30].getD ([(0:ℚ), 10, 20, 30].length - 1) 0) ∧
    ((searchLoop [0, 10, 20, 30] 15 [(0:ℚ), 10, 20, 30].length initLow
        (initHigh [(0:ℚ), 10, 20, 30].length)).2 =
      (searchLoop [0, 10, 20, 30] 15 [(0:ℚ), 10, 20, 30].length initLow
        (initHigh [(0:ℚ), 10, 20, 30].length)).1 + 1 ∧
    [(0:ℚ), 10, 20, 30].getD (searchLoop [0, 10, 20, 30] 15
        [(0:ℚ), 10, 20, 30].length initLow
        (initHigh [(0:ℚ), 10, 20, 30].length)).1 0 ≤ 15 ∧
    (15:ℚ) ≤ [(0:ℚ), 10, 20, 30].getD (searchLoop [0, 10, 20, 30] 15
        [(0:ℚ), 10, 20, 30].length initLow
        (initHigh [(0:ℚ), 10, 20, 30].length)).2 0 ∧
    ∀ extra, searchLoop [0, 10, 20, 30] 15
        ([(0:ℚ), 10, 20, 30].length + extra) initLow
        (initHigh [(0:ℚ), 10, 20, 30].length) =
      searchLoop [0, 10, 20, 30] 15 [(0:ℚ), 10, 20, 30].length initLow
        (initHigh [(0:ℚ), 10, 20, 30].length)) :=
  ⟨by decide, by decide, by decide, by decide, by decide,
    C1_search_converges [0, 10, 20, 30] 15 (by decide) (by decide) (by decide)
      (by decide) (by decide)⟩

/-- C2: For every table with `x` sorted non-decreasing, `N ≥ 2` (`N` below
`2^64`), equal-length `f`, and every `t` with `x[0] < t < x[N-1]`, letting
`(low, high)` be the adjacent indices found by the search and
`denom = x[high] - x[low]`, if `denom ≠ 0` then `get t` returns
`(f[high]-f[low])/denom * t + (x[high]*f[low] - x[low]*f[high])/denom`,
which is the line through `(x[low], f[low])` and `(x[high], f[high])`
evaluated at `t`. -/
theorem C2_interpolation_line (x f : List ℚ) (t : ℚ)
    (hW : x.length < 2 ^ wordW) (hsorted : List.Sorted (· ≤ ·) x)
    (hN : 2 ≤ x.length) (hlen : f.length = x.length)
    (hlo : x.getD 0 0 < t) (hhi : t < x.getD (x.length - 1) 0)
    (hden : x.getD (searchLoop x t x.length initLow (initHigh x.length)).2 0 -
      x.getD (searchLoop x t x.length initLow (initHigh x.length)).1 0 ≠ 0) :
    get x f t =
      (f.getD (searchLoop x t x.length initLow (initHigh x.length)).2 0 -
        f.getD (searchLoop x t x.length initLow (initHigh x.length)).1 0) /
       (x.getD (searchLoop x t x.length initLow (initHigh x.length)).2 0 -
        x.getD (searchLoop x t x.length initLow (initHigh x.length)).1 0) * t +
      (x.getD (searchLoop x t x.length initLow (initHigh x.length)).2 0 *
        f.getD (searchLoop x t x.length initLow (initHigh x.length)).1 0 -
       x.getD (searchLoop x t x.length initLow (initHigh x.length)).1 0 *
        f.getD (searchLoop x t x.length initLow (initHigh x.length)).2 0) /
       (x.getD (searchLoop x t x.length initLow (initHigh x.length)).2 0 -
        x.getD (searchLoop x t x.length initLow (initHigh x.length)).1 0) ∧
    get x f t =
      lineThrough
        (x.getD (searchLoop x t x.length initLow (initHigh x.length)).1 0)
        (f.getD (searchLoop x t x.length initLow (initHigh x.length)).1 0)
        (x.getD (searchLoop x t x.length initLow (initHigh x.length)).2 0)
        (f.getD (searchLoop x t x.length initLow (initHigh x.length)).2 0) t := by
  have h1 : ¬ t ≤ x.getD 0 0 := not_le.mpr hlo
  have h2 : ¬ x.getD (x.length - 1) 0 ≤ t := not_le.mpr hhi
  have hx0 : x.length ≠ 0 := by omega
  have hret := get_in_range x f t hx0 hlen h1 h2
  have hformula : get x f t =
      (f.getD (searchLoop x t x.length initLow (initHigh x.length)).2 0 -
        f.getD (searchLoop x t x.length initLow (initHigh x.length)).1 0) /
       (x.getD (searchLoop x t x.length initLow (initHigh x.length)).2 0 -
        x.getD (searchLoop x t x.length initLow (initHigh x.length)).1 0) * t +
      (x.getD (searchLoop x t x.length initLow (initHigh x.length)).2 0 *
        f.getD (searchLoop x t x.length initLow (initHigh x.length)).1 0 -
       x.getD (searchLoop x t x.length initLow (initHigh x.length)).1 0 *
        f.getD (searchLoop x t x.length initLow (initHigh x.length)).2 0) /
       (x.getD (searchLoop x t x.length initLow (initHigh x.length)).2 0 -
        x.getD (searchLoop x t x.length initLow (initHigh x.length)).1 0) := by
    rw [hret]
    unfold interp
    rw [if_neg hden]
  refine ⟨hformula, ?_⟩
  rw [hformula]
  unfold lineThrough
  have key : ∀ a fa b fb u : ℚ, b - a ≠ 0 →
      (fb - fa) / (b - a) * u + (b * fa - a * fb) / (b - a) =
      fa + (fb - fa) / (b - a) * (u - a) := by
    intro a fa b fb u h
    field_simp
    ring
  exact key _ _ _ _ _ hden

theorem C2_interpolation_line_witness :
    ([(0:ℚ), 10, 20, 30].length < 2 ^ wordW) ∧
    List.Sorted (· ≤ ·) [(0:ℚ), 10, 20, 30] ∧
    2 ≤ [(0:ℚ), 10, 20, 30].length ∧
    [(0:ℚ), 100, 50, 200].length = [(0:ℚ), 10, 20, 30].length ∧
    [(0:ℚ), 10, 20, 30].getD 0 0 < 15 ∧
    ((15:ℚ) < [(0:ℚ), 10, 20, 30].getD ([(0:ℚ), 10, 20, 30].length - 1) 0) ∧
    ([(0:ℚ), 10, 20, 30].getD (searchLoop [0, 10, 20, 30] 15
        [(0:ℚ), 10, 20, 30].length initLow
        (initHigh [(0:ℚ), 10, 20, 30].length)).2 0 -
      [(0:ℚ), 10, 20, 30].getD (searchLoop [0, 10, 20, 30] 15
        [(0:ℚ), 10, 20, 30].length initLow
        (initHigh [(0:ℚ), 10, 20, 30].length)).1 0 ≠ 0) ∧
    get [0, 10, 20, 30] [0, 100, 50, 200] 15 =
      lineThrough
        ([(0:ℚ), 10, 20, 30].getD (searchLoop [0, 10, 20, 30] 15
          [(0:ℚ), 10, 20, 30].length initLow
          (initHigh [(0:ℚ), 10, 20, 30].length)).1 0)
        ([(0:ℚ), 100, 50, 200].getD (searchLoop [0, 10, 20, 30] 15
          [(0:ℚ), 10, 20, 30].length initLow
          (initHigh [(0:ℚ), 10, 20, 30].length)).1 0)
        ([(0:ℚ), 10, 20, 30].getD (searchLoop [0, 10, 20, 30] 15
          [(0:ℚ), 10, 20, 30].length initLow
          (initHigh [(0:ℚ), 10, 20, 30].length)).2 0)
        ([(0:ℚ), 100, 50, 200].getD (searchLoop [0, 10, 20, 30] 15
          [(0:ℚ), 10, 20, 30].length initLow
          (initHigh [(0:ℚ), 10, 20, 30].length)).2 0) 15 := by
  have hs : searchLoop [0, 10, 20, 30] 15 [(0:ℚ), 10, 20, 30].length initLow
      (initHigh [(0:ℚ), 10, 20, 30].length) = (1, 2) := by decide
  have hden : [(0:ℚ), 10, 20, 30].getD (searchLoop [0, 10, 20, 30] 15
      [(0:ℚ), 10, 20, 30].length initLow
      (initHigh [(0:ℚ), 10, 20, 30].length)).2 0 -
      [(0:ℚ), 10, 20, 30].getD (searchLoop [0, 10, 20, 30] 15
      [(0:ℚ), 10, 20, 30].length initLow
      (initHigh [(0:ℚ), 10, 20, 30].length)).1 0 ≠ 0 := by
    rw [hs]
    norm_num
  exact ⟨by decide, by decide, by decide, by decide, by decide, by decide, hden,
    (C2_interpolation_line [0, 10, 20, 30] [0, 100, 50, 200] 15 (by decide)
      (by decide) (by decide) (by decide) (by decide) (by decide) hden).2⟩

/-- C3: The masked updates `low' = (mid & mask) | (low & ~mask)` and
`high' = (mid & ~mask) | (high & mask)`, with `mask` all-ones when `cmp` and
all-zeros otherwise, equal the branching updates `low' = cmp ? mid : low`,
`high' = cmp ? high : mid` (whenever the values fit the index word width);
hence the branchless search loop computes the same `(low, high)` pair as the
ordinary branching binary search from the same initial bounds. -/
theorem C3_branchless_refines_branching :
    (∀ w : Nat, maskOf w true = allOnes w ∧ maskOf w false = 0) ∧
    (∀ (w low high mid : Nat) (cmp : Bool), low < 2 ^ w → high < 2 ^ w →
      mid < 2 ^ w →
      step w low high mid cmp =
        (if cmp then mid else low, if cmp then high else mid)) ∧
    (∀ (x : List ℚ) (t : ℚ) (fuel low high : Nat),
      low < 2 ^ wordW → high < 2 ^ wordW → high - low ≤ fuel →
      searchLoop x t fuel low high = searchBranch x t low high) :=
  ⟨fun w => ⟨rfl, rfl⟩,
   fun w low high mid cmp h1 h2 h3 => step_eq_branch w low high mid cmp h1 h2 h3,
   fun x t fuel low high h1 h2 h3 =>
     searchLoop_eq_searchBranch x t fuel low high h1 h2 h3⟩

theorem C3_branchless_refines_branching_witness :
    (0 < 2 ^ 4 ∧ 9 < 2 ^ 4 ∧ 3 < 2 ^ 4 ∧
      step 4 0 9 3 true = (if true then 3 else 0, if true then 9 else 3)) ∧
    (0 < 2 ^ wordW ∧ 4 < 2 ^ wordW ∧ 4 - 0 ≤ 4 ∧
      searchLoop [0, 10, 20, 30] 15 4 0 4 = searchBranch [0, 10, 20, 30] 15 0 4) :=
  ⟨⟨by decide, by decide, by decide,
    C3_branchless_refines_branching.2.1 4 0 9 3 true (by decide) (by decide)
      (by decide)⟩,
   ⟨by positivity, by decide, by decide,
    C3_branchless_refines_branching.2.2 [0, 10, 20, 30] 15 4 0 4 (by positivity)
      (by decide) (by decide)⟩⟩

/-- C4 as stated is false on the code: for the (sorted, non-decreasing) table
`x = [5, 5]`, `f = [1, 2]` and the query `t = 5`, `t ≥ x[N-1]` holds, yet
`get` returns `f[0] = 1` and not `f[N-1] = 2` — when `t ≤ x[0]` and
`t ≥ x[N-1]` hold simultaneously the first clamp wins. -/
theorem C4_clamp_counterexample :
    [(5:ℚ), 5].getD (2 - 1) 0 ≤ 5 ∧
    get [5, 5] [1, 2] 5 = 1 ∧
    [(1:ℚ), 2].getD (2 - 1) 0 = 2 ∧
    (1:ℚ) ≠ 2 := by
  refine ⟨by decide, ?_, by decide, by decide⟩
  rw [get_clamp_front [5, 5] [1, 2] 5 (by decide) (by decide) (by decide)]
  rfl

/-- C4 amended: for every non-empty table (`N ≥ 1`, equal lengths) and every
query `t`: if `t ≤ x[0]` then `get t = f[0]`; if `t ≥ x[N-1]` **and**
`t > x[0]` then `get t = f[N-1]`; `get x[0] = f[0]` always; and
`get x[N-1] = f[N-1]` whenever `x[0] < x[N-1]` or `N = 1` (if
`x[0] = x[N-1]` with `f[0] ≠ f[N-1]` the first clamp wins instead).  Queries
outside the domain only ever produce the two boundary values — no
extrapolation. -/
theorem C4_boundary_clamping (x f : List ℚ) (t : ℚ)
    (hN : 1 ≤ x.length) (hlen : f.length = x.length) :
    (t ≤ x.getD 0 0 → get x f t = f.getD 0 0) ∧
    (x.getD (x.length - 1) 0 ≤ t → ¬ t ≤ x.getD 0 0 →
      get x f t = f.getD (x.length - 1) 0) ∧
    get x f (x.getD 0 0) = f.getD 0 0 ∧
    (x.getD 0 0 < x.getD (x.length - 1) 0 ∨ x.length = 1 →
      get x f (x.getD (x.length - 1) 0) = f.getD (x.length - 1) 0) := by
  have hx0 : x.length ≠ 0 := by omega
  refine ⟨?_, ?_, ?_, ?_⟩
  · intro h
    exact get_clamp_front x f t hx0 hlen h
  · intro h2 h1
    rw [get_clamp_back x f t hx0 hlen h1 h2, hlen]
  · exact get_clamp_front x f _ hx0 hlen (le_refl _)
  · intro hcase
    rcases hcase with hlt | hone
    · rw [get_clamp_back x f _ hx0 hlen (not_le.mpr hlt) (le_refl _), hlen]
    · have h0 : x.length - 1 = 0 := by omega
      rw [h0]
      exact get_clamp_front x f _ hx0 hlen (le_refl _)

theorem C4_boundary_clamping_witness :
    1 ≤ [(0:ℚ), 10, 20, 30].length ∧
    [(0:ℚ), 100, 50, 200].length = [(0:ℚ), 10, 20, 30].length ∧
    (((-5:ℚ) ≤ [(0:ℚ), 10, 20, 30].getD 0 0 →
      get [0, 10, 20, 30] [0, 100, 50, 200] (-5) =
        [(0:ℚ), 100, 50, 200].getD 0 0) ∧
    ([(0:ℚ), 10, 20, 30].getD ([(0:ℚ), 10, 20, 30].length - 1) 0 ≤ (-5:ℚ) →
      ¬ (-5:ℚ) ≤ [(0:ℚ), 10, 20, 30].getD 0 0 →
      get [0, 10, 20, 30] [0, 100, 50, 200] (-5) =
        [(0:ℚ), 100, 50, 200].getD ([(0:ℚ), 10, 20, 30].length - 1) 0) ∧
    get [0, 10, 20, 30] [0, 100, 50, 200] ([(0:ℚ), 10, 20, 30].getD 0 0) =
      [(0:ℚ), 100, 50, 200].getD 0 0 ∧
    ([(0:ℚ), 10, 20, 30].getD 0 0 <
        [(0:ℚ), 10, 20, 30].getD ([(0:ℚ), 10, 20, 30].length - 1) 0 ∨
      [(0:ℚ), 10, 20, 30].length = 1 →
      get [0, 10, 20, 30] [0, 100, 50, 200]
        ([(0:ℚ), 10, 20, 30].getD ([(0:ℚ), 10, 20, 30].length - 1) 0) =
        [(0:ℚ), 100, 50, 200].getD ([(0:ℚ), 10, 20, 30].length - 1) 0)) :=
  ⟨by decide, by decide,
    C4_boundary_clamping [0, 10, 20, 30] [0, 100, 50, 200] (-5) (by decide)
      (by decide)⟩

/-- C5: `get` returns the element type's zero, signalling no error, in each
degenerate case: for every query when `N = 0` or the sequence lengths differ;
and, in the interpolation tail (which computes the result for the located
interval — for an interior query `get` is exactly this tail at the search's
index pair, fourth conjunct), when `x[high] - x[low] = 0`. -/
theorem C5_degenerate_zero (x f : List ℚ) (t : ℚ) :
    (x.length = 0 → get x f t = 0) ∧
    (f.length ≠ x.length → get x f t = 0) ∧
    (∀ low high : Nat, x.getD high 0 - x.getD low 0 = 0 →
      interp x f t low high = 0) ∧
    (x.length ≠ 0 → f.length = x.length → ¬ t ≤ x.getD 0 0 →
      ¬ x.getD (x.length - 1) 0 ≤ t →
      get x f t = interp x f t
        (searchLoop x t x.length initLow (initHigh x.length)).1
        (searchLoop x t x.length initLow (initHigh x.length)).2) := by
  refine ⟨?_, ?_, ?_, ?_⟩
  · intro h
    exact get_guard x f t (Or.inl h)
  · intro h
    exact get_guard x f t (Or.inr h)
  · intro low high h
    unfold interp
    rw [if_pos h]
  · intro hx hf h1 h2
    exact get_in_range x f t hx hf h1 h2

theorem C5_degenerate_zero_witness :
    ([] : List ℚ).length = 0 ∧ get [] [] 3 = 0 ∧
    [(1:ℚ)].length ≠ [(1:ℚ), 2].length ∧ get [1, 2] [1] 3 = 0 ∧
    [(5:ℚ), 5].getD 1 0 - [(5:ℚ), 5].getD 0 0 = 0 ∧
    interp [5, 5] [1, 2] 7 0 1 = 0 := by
  have hden : [(5:ℚ), 5].getD 1 0 - [(5:ℚ), 5].getD 0 0 = 0 := by
    norm_num [List.getD]
  exact ⟨rfl, (C5_degenerate_zero [] [] 3).1 rfl, by decide,
    (C5_degenerate_zero [1, 2] [1] 3).2.1 (by decide), hden,
    (C5_degenerate_zero [5, 5] [1, 2] 7).2.2.1 0 1 hden⟩

/-- C6: for any table contents whatever (any `N` representable in `size_t`,
`x` not necessarily sorted) and any query `t`, every index at which `get`
reads `m_x` or `m_f` — the clamp reads, every loop read `m_x[mid]` and the
final interpolation reads at `low`, `high` — is within `[0, N-1]`; in
particular the final reads are in bounds even though `high` starts at the
table size.  (`get` itself is a total Lean function, and its division is
syntactically guarded by the `denom = 0` test, so no division by zero is
performed.) -/
theorem C6_every_access_in_bounds (x f : List ℚ) (t : ℚ)
    (hW : x.length < 2 ^ wordW) :
    ∀ i ∈ getAccesses x f t, i < x.length := by
  intro i hi
  unfold getAccesses at hi
  by_cases hg : x.length = 0 ∨ f.length ≠ x.length
  · rw [if_pos hg] at hi
    simp at hi
  · rw [if_neg hg] at hi
    have hx0 : x.length ≠ 0 := fun h => hg (Or.inl h)
    by_cases h1 : t ≤ x.getD 0 0
    · rw [if_pos h1] at hi
      simp at hi
      omega
    · rw [if_neg h1] at hi
      by_cases h2 : x.getD (x.length - 1) 0 ≤ t
      · rw [if_pos h2] at hi
        simp at hi
        rcases hi with h | h <;> omega
      · rw [if_neg h2] at hi
        simp only [List.mem_cons, List.mem_append, List.mem_singleton] at hi
        have h0 : initLow < initHigh x.length := by
          simp only [initLow, initHigh]
          omega
        have hinv := searchLoop_invariant x t hW (not_le.mp h2) x.length
          initLow (initHigh x.length) h0 (le_refl _)
          (by simp only [initLow, initHigh]; omega)
          (by simpa only [initLow] using not_le.mp h1)
          (Or.inl (by simp only [initHigh]))
        have hmids := searchAccesses_lt x t hW x.length initLow
          (initHigh x.length) (by simp only [initLow]; positivity) (le_refl _)
        rcases hi with rfl | rfl | hm | rfl | rfl | hfalse
        · omega
        · omega
        · exact hmids i hm
        · omega
        · omega
        · simp at hfalse

theorem C6_every_access_in_bounds_witness :
    [(0:ℚ), 10, 20, 30].length < 2 ^ wordW ∧
    ∀ i ∈ getAccesses [0, 10, 20, 30] [0, 100, 50, 200] 15,
      i < [(0:ℚ), 10, 20, 30].length :=
  ⟨by decide,
    C6_every_access_in_bounds [0, 10, 20, 30] [0, 100, 50, 200] 15 (by decide)⟩

/-- C7 as stated is false on the code: line 50 initialises `high` to
`TABLE_SIZE` itself (embedded as `initHigh`), not to the last valid index
`TABLE_SIZE - 1`: already for a table of size 4, `initHigh 4 = 4 ≠ 3`. -/
theorem C7_initial_high_counterexample :
    initHigh 4 = 4 ∧ initHigh 4 ≠ 4 - 1 := by
  decide

/-- C7 amended: for `t` strictly inside the sampled domain the branchless
search begins with `low = 0` and `high = N` — the table size, one past the
last valid index — and the exit value of `high` is nonetheless at most
`N - 1`, so the out-of-range initial bound never reaches an array access. -/
theorem C7_initial_bounds (x : List ℚ) (t : ℚ)
    (hW : x.length < 2 ^ wordW) (hN : 1 ≤ x.length)
    (hlo : x.getD 0 0 < t) (hhi : t < x.getD (x.length - 1) 0) :
    initLow = 0 ∧ initHigh x.length = x.length ∧
    (searchLoop x t x.length initLow (initHigh x.length)).2 ≤ x.length - 1 := by
  refine ⟨rfl, rfl, ?_⟩
  have h0 : initLow < initHigh x.length := by
    simp only [initLow, initHigh]
    omega
  exact (searchLoop_invariant x t hW hhi x.length initLow (initHigh x.length) h0
    (le_refl _) (by simp only [initLow, initHigh]; omega)
    (by simpa only [initLow] using hlo) (Or.inl (by simp only [initHigh]))).2.1

theorem C7_initial_bounds_witness :
    [(0:ℚ), 10, 20, 30].length < 2 ^ wordW ∧
    1 ≤ [(0:ℚ), 10, 20, 30].length ∧
    [(0:ℚ), 10, 20, 30].getD 0 0 < 15 ∧
    ((15:ℚ) < [(0:ℚ), 10, 20, 30].getD ([(0:ℚ), 10, 20, 30].length - 1) 0) ∧
    (initLow = 0 ∧ initHigh [(0:ℚ), 10, 20, 30].length =
        [(0:ℚ), 10, 20, 30].length ∧
      (searchLoop [0, 10, 20, 30] 15 [(0:ℚ), 10, 20, 30].length initLow
        (initHigh [(0:ℚ), 10, 20, 30].length)).2 ≤
        [(0:ℚ), 10, 20, 30].length - 1) :=
  ⟨by decide, by decide, by decide, by decide,
    C7_initial_bounds [0, 10, 20, 30] 15 (by decide) (by decide) (by decide)
      (by decide)⟩

/-! ### Machine lemmas -/

theorem mem_of_getElem_some {α : Type} {l : List α} {n : Nat} {a : α}
    (h : l[n]? = some a) : a ∈ l := by
  have hn : n < l.length := by
    by_contra hc
    rw [List.getElem?_eq_none (by omega)] at h
    cases h
  have h2 := List.getElem?_eq_getElem hn
  rw [h] at h2
  rw [Option.some.inj h2]
  exact List.getElem_mem hn

/-- For a jump-free program, the executed-pc trace does not depend on the
table, the query or the register contents. -/
theorem execProg_trace_const (p : List Instr)
    (hnj : ∀ i ∈ p, i.isJnz = false) :
    ∀ fuel pc (x1 x2 : List ℚ) (t1 t2 : ℚ) (r1 r2 : List Nat),
      (execProg x1 t1 p fuel pc r1).1 = (execProg x2 t2 p fuel pc r2).1 := by
  intro fuel
  induction fuel with
  | zero => intro pc x1 x2 t1 t2 r1 r2; rfl
  | succ fuel ih =>
    intro pc x1 x2 t1 t2 r1 r2
    cases hg : p[pc]? with
    | none => simp [execProg, hg]
    | some i =>
      have hnji : i.isJnz = false := hnj i (mem_of_getElem_some hg)
      cases i with
      | jnzR a b => simp [Instr.isJnz] at hnji
      | subR d a b =>
        simp [execProg, hg]
        exact ih (pc + 1) x1 x2 t1 t2 _ _
      | shrR d a =>
        simp [execProg, hg]
        exact ih (pc + 1) x1 x2 t1 t2 _ _
      | addR d a b =>
        simp [execProg, hg]
        exact ih (pc + 1) x1 x2 t1 t2 _ _
      | cmpGtR d a =>
        simp [execProg, hg]
        exact ih (pc + 1) x1 x2 t1 t2 _ _
      | negR d a =>
        simp [execProg, hg]
        exact ih (pc + 1) x1 x2 t1 t2 _ _
      | andR d a b =>
        simp [execProg, hg]
        exact ih (pc + 1) x1 x2 t1 t2 _ _
      | orR d a b =>
        simp [execProg, hg]
        exact ih (pc + 1) x1 x2 t1 t2 _ _
      | notR d a =>
        simp [execProg, hg]
        exact ih (pc + 1) x1 x2 t1 t2 _ _

/-- On a jump-free program the full semantics computes the straight-line
run. -/
theorem execProg_eq_runStraight (x : List ℚ) (t : ℚ) (p : List Instr)
    (hnj : ∀ i ∈ p, i.isJnz = false) :
    ∀ fuel pc r, p.length - pc ≤ fuel →
      (execProg x t p fuel pc r).2 = runStraight x t (p.drop pc) r := by
  intro fuel
  induction fuel with
  | zero =>
    intro pc r hf
    rw [List.drop_eq_nil_of_le (by omega)]
    rfl
  | succ fuel ih =>
    intro pc r hf
    cases hg : p[pc]? with
    | none =>
      have hlen : p.length ≤ pc := by
        by_contra h
        rw [List.getElem?_eq_getElem (by omega)] at hg
        cases hg
      rw [List.drop_eq_nil_of_le hlen]
      simp [execProg, hg, runStraight]
    | some i =>
      have hpc : pc < p.length := by
        by_contra h
        rw [List.getElem?_eq_none (by omega)] at hg
        cases hg
      have hget : p[pc] = i := by
        have h2 := List.getElem?_eq_getElem hpc
        rw [hg] at h2
        exact (Option.some.inj h2).symm
      have hdrop : p.drop pc = i :: p.drop (pc + 1) := by
        rw [List.drop_eq_getElem_cons hpc, hget]
      have hnji : i.isJnz = false := hnj i (mem_of_getElem_some hg)
      cases i with
      | jnzR a b => simp [Instr.isJnz] at hnji
      | subR d a b =>
        rw [hdrop]
        simp [execProg, hg, runStraight]
        exact ih (pc + 1) _ (by omega)
      | shrR d a =>
        rw [hdrop]
        simp [execProg, hg, runStraight]
        exact ih (pc + 1) _ (by omega)
      | addR d a b =>
        rw [hdrop]
        simp [execProg, hg, runStraight]
        exact ih (pc + 1) _ (by omega)
      | cmpGtR d a =>
        rw [hdrop]
        simp [execProg, hg, runStraight]
        exact ih (pc + 1) _ (by omega)
      | negR d a =>
        rw [hdrop]
        simp [execProg, hg, runStraight]
        exact ih (pc + 1) _ (by omega)
      | andR d a b =>
        rw [hdrop]
        simp [execProg, hg, runStraight]
        exact ih (pc + 1) _ (by omega)
      | orR d a b =>
        rw [hdrop]
        simp [execProg, hg, runStraight]
        exact ih (pc + 1) _ (by omega)
      | notR d a =>
        rw [hdrop]
        simp [execProg, hg, runStraight]
        exact ih (pc + 1) _ (by omega)

/-- The straight-line run of `bodyProg` computes the branchless bound update
of the source loop. -/
theorem runStraight_bodyProg (x : List ℚ) (t : ℚ) (low high : Nat) :
    ((runStraight x t bodyProg [low, high, 0, 0, 0, 0, 0, 0]).getD 0 0,
     (runStraight x t bodyProg [low, high, 0, 0, 0, 0, 0, 0]).getD 1 0) =
      step wordW low high (low + (high - low) / 2)
        (decide (x.getD (low + (high - low) / 2) 0 < t)) := by
  by_cases hcmp : x.getD (low + (high - low) / 2) 0 < t
  · simp only [List.getD, List.get?_eq_getElem?] at hcmp
    simp [runStraight, bodyProg, applyInstr, hcmp, step, maskOf, notW, wordW,
      allOnes, List.set, List.getD]
  · simp only [List.getD, List.get?_eq_getElem?] at hcmp
    simp [runStraight, bodyProg, applyInstr, hcmp, step, maskOf, notW, wordW,
      allOnes, List.set, List.getD]

/-- C8: each iteration of the search loop executes the same fixed sequence of
arithmetic and bitwise operations regardless of the outcome of the comparison
`t > x[mid]`.  Formally: the loop body is the fixed program `bodyProg`, which
contains no conditional jump; the executed-instruction trace of `bodyProg`
under the jump-capable machine semantics is identical for **all** tables,
queries and register files (instruction flow does not depend on `t`); and its
final registers compute exactly the branchless `step` of the source on
`(low, high)` — only the operated-on values depend on `t`. -/
theorem C8_fixed_instruction_sequence :
    (∀ i ∈ bodyProg, i.isJnz = false) ∧
    (∀ (fuel pc : Nat) (x1 x2 : List ℚ) (t1 t2 : ℚ) (r1 r2 : List Nat),
      (execProg x1 t1 bodyProg fuel pc r1).1 =
        (execProg x2 t2 bodyProg fuel pc r2).1) ∧
    (∀ (x : List ℚ) (t : ℚ) (low high : Nat),
      ((execProg x t bodyProg bodyProg.length 0
          [low, high, 0, 0, 0, 0, 0, 0]).2.getD 0 0,
       (execProg x t bodyProg bodyProg.length 0
          [low, high, 0, 0, 0, 0, 0, 0]).2.getD 1 0) =
        step wordW low high (low + (high - low) / 2)
          (decide (x.getD (low + (high - low) / 2) 0 < t))) := by
  have hnj : ∀ i ∈ bodyProg, i.isJnz = false := by decide
  refine ⟨hnj, fun fuel pc x1 x2 t1 t2 r1 r2 =>
    execProg_trace_const bodyProg hnj fuel pc x1 x2 t1 t2 r1 r2, ?_⟩
  intro x t low high
  rw [execProg_eq_runStraight x t bodyProg hnj bodyProg.length 0
    [low, high, 0, 0, 0, 0, 0, 0] (by omega), List.drop_zero]
  exact runStraight_bodyProg x t low high

theorem C8_fixed_instruction_sequence_witness :
    Instr.subR 2 1 0 ∈ bodyProg ∧ (Instr.subR 2 1 0).isJnz = false ∧
    (execProg [0, 10] 3 bodyProg 12 0 [0, 2, 0, 0, 0, 0, 0, 0]).1 =
      (execProg [5, 7, 9] 8 bodyProg 12 0 [1, 3, 0, 0, 0, 0, 0, 0]).1 ∧
    ((execProg [0, 10, 20, 30] 15 bodyProg bodyProg.length 0
        [0, 4, 0, 0, 0, 0, 0, 0]).2.getD 0 0,
     (execProg [0, 10, 20, 30] 15 bodyProg bodyProg.length 0
        [0, 4, 0, 0, 0, 0, 0, 0]).2.getD 1 0) =
      step wordW 0 4 (0 + (4 - 0) / 2)
        (decide ([(0:ℚ), 10, 20, 30].getD (0 + (4 - 0) / 2) 0 < 15)) :=
  ⟨by decide,
   C8_fixed_instruction_sequence.1 (Instr.subR 2 1 0) (by decide),
   C8_fixed_instruction_sequence.2.1 12 0 [0, 10] [5, 7, 9] 3 8
     [0, 2, 0, 0, 0, 0, 0, 0] [1, 3, 0, 0, 0, 0, 0, 0],
   C8_fixed_instruction_sequence.2.2 [0, 10, 20, 30] 15 0 4⟩

/-- C9: the spec's concrete scenario, over `ℚ`: table `x = [0, 10, 20, 30]`,
`f = [0, 100, 50, 200]`; `get(-5) = 0`, `get(0) = 0`, `get(5) = 50`,
`get(10) = 100`, `get(15) = 75`, `get(30) = 200`, `get(35) = 200`. -/
theorem C9_concrete_scenario :
    get [0, 10, 20, 30] [0, 100, 50, 200] (-5) = 0 ∧
    get [0, 10, 20, 30] [0, 100, 50, 200] 0 = 0 ∧
    get [0, 10, 20, 30] [0, 100, 50, 200] 5 = 50 ∧
    get [0, 10, 20, 30] [0, 100, 50, 200] 10 = 100 ∧
    get [0, 10, 20, 30] [0, 100, 50, 200] 15 = 75 ∧
    get [0, 10, 20, 30] [0, 100, 50, 200] 30 = 200 ∧
    get [0, 10, 20, 30] [0, 100, 50, 200] 35 = 200 := by
  have hs5 : searchLoop [0, 10, 20, 30] 5 [(0:ℚ), 10, 20, 30].length initLow
      (initHigh [(0:ℚ), 10, 20, 30].length) = (0, 1) := by decide
  have hs10 : searchLoop [0, 10, 20, 30] 10 [(0:ℚ), 10, 20, 30].length initLow
      (initHigh [(0:ℚ), 10, 20, 30].length) = (0, 1) := by decide
  have hs15 : searchLoop [0, 10, 20, 30] 15 [(0:ℚ), 10, 20, 30].length initLow
      (initHigh [(0:ℚ), 10, 20, 30].length) = (1, 2) := by decide
  refine ⟨?_, ?_, ?_, ?_, ?_, ?_, ?_⟩
  · rw [get_clamp_front [0, 10, 20, 30] [0, 100, 50, 200] (-5) (by decide)
      (by decide) (by decide)]
    rfl
  · rw [get_clamp_front [0, 10, 20, 30] [0, 100, 50, 200] 0 (by decide)
      (by decide) (by decide)]
    rfl
  · rw [get_in_range [0, 10, 20, 30] [0, 100, 50, 200] 5 (by decide)
      (by decide) (by decide) (by decide), hs5]
    norm_num [interp, List.getD]
  · rw [get_in_range [0, 10, 20, 30] [0, 100, 50, 200] 10 (by decide)
      (by decide) (by decide) (by decide), hs10]
    norm_num [interp, List.getD]
  · rw [get_in_range [0, 10, 20, 30] [0, 100, 50, 200] 15 (by decide)
      (by decide) (by decide) (by decide), hs15]
    norm_num [interp, List.getD]
  · rw [get_clamp_back [0, 10, 20, 30] [0, 100, 50, 200] 30 (by decide)
      (by decide) (by decide) (by decide)]
    rfl
  · rw [get_clamp_back [0, 10, 20, 30] [0, 100, 50, 200] 35 (by decide)
      (by decide) (by decide) (by decide)]
    rfl

/-- C10: every `LookupTable` built through the public constructor stores
independent and dependent sequences of the same fixed length `TABLE_SIZE`
(both members are `std::array<T, TABLE_SIZE>`), so `m_f.size() = m_x.size()`
holds for every instance; the mismatched-length arm of `get`'s degenerate
guard is unreachable, and only `TABLE_SIZE = 0` can trigger the zero fallback
at that guard.  The last conjunct ties the member function to the embedded
`get`. -/
theorem C10_constructor_invariant (TABLE_SIZE : Nat)
    (tbl : LookupTable TABLE_SIZE) :
    tbl.m_x.length = TABLE_SIZE ∧ tbl.m_f.length = TABLE_SIZE ∧
    tbl.m_f.length = tbl.m_x.length ∧
    ¬ (tbl.m_f.length ≠ tbl.m_x.length) ∧
    ((tbl.m_x.length = 0 ∨ tbl.m_f.length ≠ tbl.m_x.length) ↔ TABLE_SIZE = 0) ∧
    ∀ t, tbl.get t = get tbl.m_x tbl.m_f t := by
  have h1 := tbl.hx
  have h2 := tbl.hf
  exact ⟨h1, h2, by omega, by omega, by omega, fun t => rfl⟩

end LookupTableH
